import Mathlib

/-!
Shallow embedding of `src/simulations/qho/qho.py`: the `FunctionSampler`
lookup-table cache, the `HilbertSpace` quantum-harmonic-oscillator eigenbasis,
and the `WaveFunction` projection / normalization / spectral time-evolution
core.  Machine floats are modelled as real numbers; the scipy quadrature
routine (`integrate.quad(g, -inf, inf)[0]`) is an explicit parameter
`quad : (ℝ → ℝ) → ℝ` of every construction that calls it, so that theorems
quantify over the value the numerical integrator returns.
-/

noncomputable section

set_option maxRecDepth 4000

/-- Python's builtin `round`: round-half-to-even (banker's rounding), as used by
`FunctionSampler.__call__`.  When the fractional part is exactly `1/2` Python
picks the even neighbour; otherwise it agrees with rounding to the nearest
integer (Mathlib's `round`, i.e. `⌊y + 1/2⌋`). -/
def pyRound (y : ℝ) : ℤ :=
  if Int.fract y = 1 / 2 then (if Even ⌊y⌋ then ⌊y⌋ else ⌊y⌋ + 1) else round y

/-- Python list subscription `l[i]` with an integer index: a negative index is
taken from the end (`l[len l + i]`), and an index that is still out of range
raises `IndexError`, modelled as `none`. -/
def pyGet {α : Type} (l : List α) (i : ℤ) : Option α :=
  let j := if i < 0 then (l.length : ℤ) + i else i
  if 0 ≤ j then l.get? j.toNat else none

/-- `np.linspace(minX, maxX, num)`: `num` evenly spaced points from `minX` to
`maxX`, endpoint included; the step is `(maxX - minX) / (num - 1)`.  (For
`num = 1` the division by zero below yields `[minX]`, matching numpy; for
`num = 0` the list is empty.) -/
def linspace (minX maxX : ℝ) (num : ℕ) : List ℝ :=
  (List.range num).map (fun (i : ℕ) => minX + (i : ℝ) * ((maxX - minX) / ((num : ℝ) - 1)))

/-- The `FunctionSampler` object: domain bounds, sample count, the sampled
grid `self.domain = np.linspace(minX, maxX, numSamples)` and the cached
values `self.image = [f(x) for x in self.domain]`.  (The stored attribute
`self.range = maxX - minX` is inlined below.) -/
structure FunctionSampler (α : Type) where
  minX : ℝ
  maxX : ℝ
  numSamples : ℕ
  domain : List ℝ
  image : List α

/-- `FunctionSampler.__init__(f, minX, maxX, numSamples)`. -/
def FunctionSampler.construct {α : Type} (f : ℝ → α) (minX maxX : ℝ) (numSamples : ℕ) :
    FunctionSampler α :=
  { minX := minX
    maxX := maxX
    numSamples := numSamples
    domain := linspace minX maxX numSamples
    image := (linspace minX maxX numSamples).map f }

/-- The integer index computed by `FunctionSampler.__call__`:
`x = min(max(x, minX), maxX - 1); x -= minX; x = round(x * (numSamples / range))`. -/
def FunctionSampler.index {α : Type} (s : FunctionSampler α) (x : ℝ) : ℤ :=
  pyRound ((min (max x s.minX) (s.maxX - 1) - s.minX) * ((s.numSamples : ℝ) / (s.maxX - s.minX)))

/-- `FunctionSampler.__call__(x)`: the table lookup `self.image[int(x)]` with
Python list-index semantics. -/
def FunctionSampler.call {α : Type} (s : FunctionSampler α) (x : ℝ) : Option α :=
  pyGet s.image (s.index x)

/-- Physicists' Hermite polynomials, the family produced by
`scipy.special.hermite(n)`: `H_0 = 1`, `H_1 = 2x`,
`H_{n+1} = 2x H_n - 2n H_{n-1}`. -/
def hermiteH : ℕ → ℝ → ℝ
  | 0, _ => 1
  | 1, x => 2 * x
  | n + 2, x => 2 * x * hermiteH (n + 1) x - 2 * ((n : ℝ) + 1) * hermiteH n x

/-- The closed form sampled into the basis lookup tables, exactly as the source
parenthesises it:
`(1 / np.sqrt(2 ** n * factorial(n)) * np.pi ** (1 / 4)) * np.exp(-x ** 2 / 2) * hermite(n)(x)`.
Note the prefactor multiplies by `π^(1/4)`; it does not divide by it. -/
def QHOBasisClosed (n : ℕ) (x : ℝ) : ℝ :=
  (1 / Real.sqrt (2 ^ n * (n.factorial : ℝ)) * Real.pi ^ ((1 : ℝ) / 4)) *
    Real.exp (-x ^ 2 / 2) * hermiteH n x

/-- The normalization the spec asserts: prefactor `1 / sqrt(2^n · n! · sqrt π)`.
Stated from the spec's words, for comparison with `QHOBasisClosed`. -/
def QHOBasisSpecForm (n : ℕ) (x : ℝ) : ℝ :=
  1 / Real.sqrt (2 ^ n * (n.factorial : ℝ) * Real.sqrt Real.pi) *
    Real.exp (-x ^ 2 / 2) * hermiteH n x

/-- The `HilbertSpace` object: dimension, the optional potential
`hamiltonianPotential` (stored as `self.V` when given, never read afterwards),
and the per-mode lookup tables `QHOBasisApprox`. -/
structure HilbertSpace where
  dim : ℕ
  V : Option (ℝ → ℝ)
  basisTables : List (FunctionSampler ℝ)

/-- `HilbertSpace.__init__(dim, basis='QHO', hamiltonianPotential=...)`: one
`FunctionSampler(lambda x: QHOBasis(n, x), -15, 15, 2000)` per mode
`n in range(dim)`. -/
def HilbertSpace.construct (dim : ℕ) (V : Option (ℝ → ℝ)) : HilbertSpace :=
  { dim := dim
    V := V
    basisTables := (List.range dim).map
      (fun n => FunctionSampler.construct (fun x => QHOBasisClosed n x) (-15) 15 2000) }

/-- `self.eigenbasis(n, x) = QHOBasisApprox[n](x)`: list access then table
lookup, either of which can raise. -/
def HilbertSpace.eigenbasis (hs : HilbertSpace) (n : ℕ) (x : ℝ) : Option ℝ :=
  (pyGet hs.basisTables (n : ℤ)).bind (fun s => s.call x)

/-- The value `eigenbasis(n, x)` yields on the non-raising path (for the spaces
built by `HilbertSpace.construct` the lookup never raises for `n < dim`:
see `HilbertSpace.eigenbasis_isSome`). -/
def HilbertSpace.eigenfun (hs : HilbertSpace) (n : ℕ) (x : ℝ) : ℝ :=
  (hs.eigenbasis n x).getD 0

/-- `self.eigenvalues = lambda n: 1 / 2 + n`. -/
def HilbertSpace.eigenvalues (_hs : HilbertSpace) (n : ℕ) : ℝ :=
  1 / 2 + (n : ℝ)

/-- `WaveFunction.phaseFactor(n, t) = np.exp(-1j * self.hilbert.eigenvalues(n) * t)`. -/
def WaveFunction.phaseFactor (hs : HilbertSpace) (n : ℕ) (t : ℝ) : ℂ :=
  Complex.exp (-Complex.I * ((hs.eigenvalues n : ℝ) : ℂ) * (t : ℂ))

/-- The raw (unnormalized) superposition closed over in `WaveFunction.__init__`:
`sum([coeff[n] * eigenbasis(n, x) * phaseFactor(n, t) for n in range(dim)])`. -/
def WaveFunction.rawEvaluate (hs : HilbertSpace) (coeff : List ℂ) (x t : ℝ) : ℂ :=
  ∑ n ∈ Finset.range hs.dim,
    coeff.getD n 0 * ((hs.eigenfun n x : ℝ) : ℂ) * WaveFunction.phaseFactor hs n t

/-- `WaveFunction.normalize(waveFunc) = np.sqrt(quad(lambda x: np.absolute(waveFunc(x)) ** 2, -inf, inf)[0])`,
with the quadrature routine `quad` passed explicitly. -/
def WaveFunction.normalize (quad : (ℝ → ℝ) → ℝ) (w : ℝ → ℂ) : ℝ :=
  Real.sqrt (quad (fun x => Complex.abs (w x) ^ 2))

/-- `WaveFunction.orthogonalBasisProjection(waveFunc)`: one quadrature per mode,
`quad(lambda x: np.conj(eigenbasis(n, x)) * waveFunc(x), -inf, inf)[0]`
(`quadP` returns the real number scipy's `quad` produces).  The loop bound is
`range(hs.dim)` where `hs` is the MODULE-LEVEL Hilbert space, not
`self.hilbert`; that outer-scope dimension is the explicit `globalDim`
parameter here, while the integrand does use the instance's own basis. -/
def WaveFunction.orthogonalBasisProjection (quadP : (ℝ → ℂ) → ℝ) (globalDim : ℕ)
    (hs : HilbertSpace) (waveFunc : ℝ → ℂ) : List ℝ :=
  (List.range globalDim).map
    (fun n => quadP (fun x => (starRingEnd ℂ) ((hs.eigenfun n x : ℝ) : ℂ) * waveFunc x))

/-- The `WaveFunction` object: its Hilbert space, its coefficient list, and the
normalization constant captured by the `evaluate` closure. -/
structure WaveFunction where
  hilbert : HilbertSpace
  coeff : List ℂ
  normF : ℝ

/-- `WaveFunction.__init__(hilbertSpace, coeff=...)` (explicit-coefficient
branch): store the coefficients and compute
`normF = normalize(lambda x: evaluate(x, 0))` over the raw superposition. -/
def WaveFunction.constructC (quad : (ℝ → ℝ) → ℝ) (hs : HilbertSpace) (coeff : List ℂ) :
    WaveFunction :=
  { hilbert := hs
    coeff := coeff
    normF := WaveFunction.normalize quad (fun x => WaveFunction.rawEvaluate hs coeff x 0) }

/-- `WaveFunction.__init__(hilbertSpace, initWaveFunc=...)` (projection branch):
`coeff = orthogonalBasisProjection(initWaveFunc)` (real floats from scipy's
`quad`), then the same normalization as the explicit-coefficient branch. -/
def WaveFunction.constructW (quad : (ℝ → ℝ) → ℝ) (quadP : (ℝ → ℂ) → ℝ) (globalDim : ℕ)
    (hs : HilbertSpace) (initWaveFunc : ℝ → ℂ) : WaveFunction :=
  let coeff := (WaveFunction.orthogonalBasisProjection quadP globalDim hs initWaveFunc).map
    (fun c => ((c : ℝ) : ℂ))
  { hilbert := hs
    coeff := coeff
    normF := WaveFunction.normalize quad (fun x => WaveFunction.rawEvaluate hs coeff x 0) }

/-- The public evaluator `self.evaluate = lambda x, t: evaluate(x, t) / normF`. -/
def WaveFunction.evaluate (w : WaveFunction) (x t : ℝ) : ℂ :=
  WaveFunction.rawEvaluate w.hilbert w.coeff x t / ((w.normF : ℝ) : ℂ)

/-! Shared lemmas about `pyRound`, `pyGet` and the basis lookup tables. -/

theorem pyRound_nonneg {y : ℝ} (hy : 0 ≤ y) : 0 ≤ pyRound y := by
  unfold pyRound
  split
  · have h0 : (0 : ℤ) ≤ ⌊y⌋ := Int.floor_nonneg.mpr hy
    split
    · exact h0
    · omega
  · rw [round_eq]
    exact Int.floor_nonneg.mpr (by linarith)

theorem pyRound_le_floor (y : ℝ) : pyRound y ≤ ⌊y + 1 / 2⌋ := by
  unfold pyRound
  split
  · rename_i hf
    simp only [Int.fract] at hf
    have hy : y + 1 / 2 = ((⌊y⌋ + 1 : ℤ) : ℝ) := by
      push_cast
      linarith
    rw [hy, Int.floor_intCast]
    split
    · omega
    · omega
  · rw [round_eq]

theorem pyGet_nonneg_eq {α : Type} (l : List α) (i : ℤ) (h0 : 0 ≤ i) :
    pyGet l i = l.get? i.toNat := by
  simp [pyGet, not_lt.mpr h0, h0]

theorem pyGet_isSome {α : Type} (l : List α) (i : ℤ) (h0 : 0 ≤ i)
    (hl : i < (l.length : ℤ)) : (pyGet l i).isSome = true := by
  rw [pyGet_nonneg_eq l i h0]
  have hlt : i.toNat < l.length := by omega
  rw [List.get?_eq_get hlt]
  rfl

theorem linspace_length (a b : ℝ) (n : ℕ) : (linspace a b n).length = n := by
  rw [linspace, List.length_map, List.length_range]

theorem construct_image_length {α : Type} (f : ℝ → α) (a b : ℝ) (n : ℕ) :
    (FunctionSampler.construct f a b n).image.length = n := by
  show ((linspace a b n).map f).length = n
  rw [List.length_map, linspace_length]

theorem qho_sampler_index_bounds {α : Type} (f : ℝ → α) (x : ℝ) :
    0 ≤ (FunctionSampler.construct f (-15) 15 2000).index x ∧
      (FunctionSampler.construct f (-15) 15 2000).index x ≤ 1999 := by
  have hidx : (FunctionSampler.construct f (-15) 15 2000).index x
      = pyRound ((min (max x (-15 : ℝ)) ((15 : ℝ) - 1) - (-15)) *
          (((2000 : ℕ) : ℝ) / ((15 : ℝ) - (-15)))) := rfl
  have hc_le : min (max x (-15 : ℝ)) ((15 : ℝ) - 1) ≤ 14 := by
    have h := min_le_right (max x (-15 : ℝ)) ((15 : ℝ) - 1)
    linarith
  have hc_ge : (-15 : ℝ) ≤ min (max x (-15 : ℝ)) ((15 : ℝ) - 1) := by
    refine le_min ?_ (by norm_num)
    exact le_max_right x (-15 : ℝ)
  set c : ℝ := min (max x (-15 : ℝ)) ((15 : ℝ) - 1) with hc
  have harg0 : 0 ≤ (c - (-15)) * (((2000 : ℕ) : ℝ) / ((15 : ℝ) - (-15))) := by
    apply mul_nonneg
    · linarith
    · norm_num
  have harg : (c - (-15)) * (((2000 : ℕ) : ℝ) / ((15 : ℝ) - (-15))) ≤ 5800 / 3 := by
    have h29 : c - (-15) ≤ 29 := by linarith
    have hq : (((2000 : ℕ) : ℝ) / ((15 : ℝ) - (-15))) = 200 / 3 := by norm_num
    rw [hq]
    nlinarith
  rw [hidx]
  constructor
  · exact pyRound_nonneg harg0
  · have h1 := pyRound_le_floor ((c - (-15)) * (((2000 : ℕ) : ℝ) / ((15 : ℝ) - (-15))))
    have h2 : ⌊(c - (-15)) * (((2000 : ℕ) : ℝ) / ((15 : ℝ) - (-15))) + 1 / 2⌋ < (2000 : ℤ) := by
      rw [Int.floor_lt]
      push_cast
      linarith
    omega

theorem qho_sampler_call_isSome {α : Type} (f : ℝ → α) (x : ℝ) :
    ((FunctionSampler.construct f (-15) 15 2000).call x).isSome = true := by
  obtain ⟨h0, h1⟩ := qho_sampler_index_bounds f x
  refine pyGet_isSome _ _ h0 ?_
  rw [construct_image_length]
  omega

theorem HilbertSpace.eigenbasis_isSome (d : ℕ) (V : Option (ℝ → ℝ)) {n : ℕ} (hn : n < d)
    (x : ℝ) : ((HilbertSpace.construct d V).eigenbasis n x).isSome = true := by
  have hbt : pyGet (HilbertSpace.construct d V).basisTables (n : ℤ)
      = some (FunctionSampler.construct (fun y => QHOBasisClosed n y) (-15) 15 2000) := by
    rw [pyGet_nonneg_eq _ _ (by positivity), Int.toNat_natCast]
    show ((List.range d).map
        (fun m => FunctionSampler.construct (fun x => QHOBasisClosed m x) (-15) 15 2000)).get? n
      = _
    rw [List.get?_map, List.get?_range hn]
    rfl
  unfold HilbertSpace.eigenbasis
  rw [hbt, Option.some_bind]
  exact qho_sampler_call_isSome _ x

theorem HilbertSpace.eigenbasis_eq_some (d : ℕ) (V : Option (ℝ → ℝ)) {n : ℕ} (hn : n < d)
    (x : ℝ) : (HilbertSpace.construct d V).eigenbasis n x
      = some ((HilbertSpace.construct d V).eigenfun n x) := by
  have h := HilbertSpace.eigenbasis_isSome d V hn x
  unfold HilbertSpace.eigenfun
  cases hh : (HilbertSpace.construct d V).eigenbasis n x with
  | none => rw [hh] at h; simp at h
  | some v => simp [hh]

/-! Claim theorems. -/

/-- C4: for every mode index `n`, the Hilbert space's eigenvalue function
returns exactly `n + 0.5` (closed form `1 / 2 + n`, no numerical error). -/
theorem c4_eigenvalue_exact (d : ℕ) (V : Option (ℝ → ℝ)) (n : ℕ) :
    (HilbertSpace.construct d V).eigenvalues n = (n : ℝ) + 0.5 := by
  show (1 : ℝ) / 2 + (n : ℝ) = (n : ℝ) + 0.5
  norm_num
  ring

/-- C5: queries outside the cached domain are clamped: evaluating `minX - 100`
returns the same value as evaluating at the first (lowest) sample position
`minX`, and evaluating `maxX + 100` the same value as evaluating at the last
(highest) sample position `maxX`. -/
theorem c5_domain_clamp {α : Type} (f : ℝ → α) (minX maxX : ℝ) (N : ℕ) (h : minX ≤ maxX) :
    (FunctionSampler.construct f minX maxX N).call (minX - 100)
        = (FunctionSampler.construct f minX maxX N).call minX ∧
      (FunctionSampler.construct f minX maxX N).call (maxX + 100)
        = (FunctionSampler.construct f minX maxX N).call maxX := by
  have hidx : ∀ x y : ℝ, min (max x minX) (maxX - 1) = min (max y minX) (maxX - 1) →
      (FunctionSampler.construct f minX maxX N).index x
        = (FunctionSampler.construct f minX maxX N).index y := by
    intro x y hxy
    show pyRound ((min (max x minX) (maxX - 1) - minX) * (((N : ℕ) : ℝ) / (maxX - minX)))
      = pyRound ((min (max y minX) (maxX - 1) - minX) * (((N : ℕ) : ℝ) / (maxX - minX)))
    rw [hxy]
  have hlow : min (max (minX - 100) minX) (maxX - 1) = min (max minX minX) (maxX - 1) := by
    rw [max_eq_right (by linarith), max_self]
  have hhigh : min (max (maxX + 100) minX) (maxX - 1) = min (max maxX minX) (maxX - 1) := by
    rw [max_eq_left (by linarith), max_eq_left h,
      min_eq_right (by linarith), min_eq_right (by linarith)]
  constructor
  · unfold FunctionSampler.call
    rw [hidx (minX - 100) minX hlow]
  · unfold FunctionSampler.call
    rw [hidx (maxX + 100) maxX hhigh]

/-- Witness for C5: the concrete sampler of the identity over `[0, 1]` with 4
samples. -/
theorem c5_domain_clamp_witness :
    (0 : ℝ) ≤ 1 ∧
      ((FunctionSampler.construct (fun x : ℝ => x) 0 1 4).call ((0 : ℝ) - 100)
          = (FunctionSampler.construct (fun x : ℝ => x) 0 1 4).call 0 ∧
        (FunctionSampler.construct (fun x : ℝ => x) 0 1 4).call ((1 : ℝ) + 100)
          = (FunctionSampler.construct (fun x : ℝ => x) 0 1 4).call 1) :=
  ⟨by norm_num, c5_domain_clamp (fun x : ℝ => x) 0 1 4 (by norm_num)⟩

/-- C6 counterexample: the claim says the sampled points lie in the half-open
interval `[minX, maxX)` and that `maxX` itself is not sampled, but
`np.linspace` includes the endpoint: for the sampler over `[0, 1]` with 2
samples, `maxX = 1` is one of the sampled points. -/
theorem c6_counterexample :
    (1 : ℝ) ∈ (FunctionSampler.construct (fun x : ℝ => x) 0 1 2).domain ∧ ¬ ((1 : ℝ) < 1) := by
  constructor
  · show (1 : ℝ) ∈ linspace 0 1 2
    rw [linspace]
    simp only [List.mem_map, List.mem_range]
    exact ⟨1, by norm_num, by norm_num⟩
  · norm_num

/-- C6 (amended): construction evaluates `f` at exactly `numSamples` uniformly
spaced points spanning the closed interval `[minX, maxX]` — for
`numSamples ≥ 2` the first point is `minX`, the last is `maxX`, and consecutive
points differ by `(maxX - minX) / (numSamples - 1)` — and stores the results in
order. -/
theorem c6_sampling_amended {α : Type} (f : ℝ → α) (minX maxX : ℝ) (N i : ℕ)
    (hN : 2 ≤ N) (hi : i + 1 < N) :
    (FunctionSampler.construct f minX maxX N).domain.length = N ∧
      (FunctionSampler.construct f minX maxX N).image
        = (FunctionSampler.construct f minX maxX N).domain.map f ∧
      (FunctionSampler.construct f minX maxX N).domain.getD 0 0 = minX ∧
      (FunctionSampler.construct f minX maxX N).domain.getD (N - 1) 0 = maxX ∧
      (FunctionSampler.construct f minX maxX N).domain.getD (i + 1) 0
          - (FunctionSampler.construct f minX maxX N).domain.getD i 0
        = (maxX - minX) / ((N : ℝ) - 1) := by
  have hg : ∀ k : ℕ, k < N → (FunctionSampler.construct f minX maxX N).domain.getD k 0
      = minX + (k : ℝ) * ((maxX - minX) / ((N : ℝ) - 1)) := by
    intro k hk
    show (linspace minX maxX N).getD k 0 = _
    rw [linspace]
    simp only [List.getD, List.get?_map, List.get?_range hk, Option.map_some',
      Option.getD_some]
  refine ⟨linspace_length _ _ _, rfl, ?_, ?_, ?_⟩
  · rw [hg 0 (by omega)]
    norm_num
  · rw [hg (N - 1) (by omega)]
    have h1 : ((N - 1 : ℕ) : ℝ) = (N : ℝ) - 1 := by
      rw [Nat.cast_sub (by omega), Nat.cast_one]
    have hne : (N : ℝ) - 1 ≠ 0 := by
      have h2 : (2 : ℝ) ≤ (N : ℝ) := by exact_mod_cast hN
      linarith
    rw [h1]
    field_simp
  · rw [hg (i + 1) (by omega), hg i (by omega)]
    push_cast
    ring

/-- Witness for C6 (amended): the identity sampled over `[0, 1]` with 2
samples. -/
theorem c6_sampling_amended_witness :
    2 ≤ 2 ∧ 0 + 1 < 2 ∧
      ((FunctionSampler.construct (fun x : ℝ => x) 0 1 2).domain.length = 2 ∧
        (FunctionSampler.construct (fun x : ℝ => x) 0 1 2).image
          = (FunctionSampler.construct (fun x : ℝ => x) 0 1 2).domain.map (fun x : ℝ => x) ∧
        (FunctionSampler.construct (fun x : ℝ => x) 0 1 2).domain.getD 0 0 = 0 ∧
        (FunctionSampler.construct (fun x : ℝ => x) 0 1 2).domain.getD (2 - 1) 0 = 1 ∧
        (FunctionSampler.construct (fun x : ℝ => x) 0 1 2).domain.getD (0 + 1) 0
            - (FunctionSampler.construct (fun x : ℝ => x) 0 1 2).domain.getD 0 0
          = (1 - 0) / (((2 : ℕ) : ℝ) - 1)) :=
  ⟨by norm_num, by norm_num,
    c6_sampling_amended (fun x : ℝ => x) 0 1 2 0 (by norm_num) (by norm_num)⟩

/-- C10: for the basis-table configuration actually used
(`minX = -15`, `maxX = 15`, `numSamples = 2000`), the index computed inside
evaluation lies in `[0, numSamples - 1]` for every real input, so the
stored-value access is always in range and never wraps to a negative index. -/
theorem c10_index_in_range (f : ℝ → ℝ) (x : ℝ) :
    0 ≤ (FunctionSampler.construct f (-15) 15 2000).index x ∧
      (FunctionSampler.construct f (-15) 15 2000).index x
        ≤ ((FunctionSampler.construct f (-15) 15 2000).numSamples : ℤ) - 1 ∧
      ((FunctionSampler.construct f (-15) 15 2000).call x).isSome = true := by
  obtain ⟨h0, h1⟩ := qho_sampler_index_bounds f x
  refine ⟨h0, ?_, qho_sampler_call_isSome f x⟩
  show _ ≤ ((2000 : ℕ) : ℤ) - 1
  omega

/-- C2 (code bug, latent): the projection loop iterates `range(hs.dim)` over
the MODULE-LEVEL Hilbert space (dimension 2 in the ambient script), not over
the instance's own space.  For an instance whose own space has dimension 3,
the projection — and hence the coefficient list of a `WaveFunction` built from
an initial waveform — has length 2, not 3. -/
theorem c2_projection_global_dim (quadP : (ℝ → ℂ) → ℝ) (ψ : ℝ → ℂ) :
    (WaveFunction.orthogonalBasisProjection quadP 2 (HilbertSpace.construct 3 none) ψ).length
        = 2 ∧
      (HilbertSpace.construct 3 none).dim = 3 ∧
      (WaveFunction.constructW (fun _ => 0) quadP 2 (HilbertSpace.construct 3 none) ψ).coeff.length
        = 2 := by
  have hlen :
      (WaveFunction.orthogonalBasisProjection quadP 2 (HilbertSpace.construct 3 none) ψ).length
        = 2 := by
    show ((List.range 2).map _).length = 2
    rw [List.length_map, List.length_range]
  refine ⟨hlen, rfl, ?_⟩
  show ((WaveFunction.orthogonalBasisProjection quadP 2 (HilbertSpace.construct 3 none) ψ).map
      _).length = 2
  rw [List.length_map, hlen]

/-- C3 (code bug): the closed form sampled into the lookup tables carries the
prefactor `(1 / sqrt(2^n n!)) * π^(1/4)` — the source multiplies by
`np.pi ** (1 / 4)` instead of dividing — so at `n = 0`, `x = 0` it evaluates to
`π^(1/4) > 1`, while the spec's normalization `1 / sqrt(2^n n! sqrt π)` gives
`1 / sqrt(sqrt π) < 1`. -/
theorem c3_normalization_mismatch :
    QHOBasisClosed 0 0 = Real.pi ^ ((1 : ℝ) / 4) ∧
      QHOBasisSpecForm 0 0 = 1 / Real.sqrt (Real.sqrt Real.pi) ∧
      QHOBasisClosed 0 0 ≠ QHOBasisSpecForm 0 0 := by
  have hpi1 : (1 : ℝ) < Real.pi := by
    have h3 := Real.pi_gt_three
    linarith
  have hs1 : (1 : ℝ) < Real.sqrt Real.pi := by
    rw [show (1 : ℝ) = Real.sqrt 1 from Real.sqrt_one.symm]
    exact Real.sqrt_lt_sqrt (by norm_num) hpi1
  have hs2 : (1 : ℝ) < Real.sqrt (Real.sqrt Real.pi) := by
    rw [show (1 : ℝ) = Real.sqrt 1 from Real.sqrt_one.symm]
    exact Real.sqrt_lt_sqrt (by norm_num) hs1
  have h1 : QHOBasisClosed 0 0 = Real.pi ^ ((1 : ℝ) / 4) := by
    unfold QHOBasisClosed
    rw [show hermiteH 0 0 = 1 from rfl]
    norm_num [Nat.factorial, Real.sqrt_one, Real.exp_zero]
  have h2 : QHOBasisSpecForm 0 0 = 1 / Real.sqrt (Real.sqrt Real.pi) := by
    unfold QHOBasisSpecForm
    rw [show hermiteH 0 0 = 1 from rfl]
    norm_num [Nat.factorial, Real.exp_zero]
  have hrpow : (1 : ℝ) < Real.pi ^ ((1 : ℝ) / 4) :=
    (Real.one_lt_rpow_iff_of_pos (by linarith)).mpr (Or.inl ⟨hpi1, by norm_num⟩)
  refine ⟨h1, h2, ?_⟩
  rw [h1, h2]
  have hlt : 1 / Real.sqrt (Real.sqrt Real.pi) < 1 := by
    rw [div_lt_one (by linarith)]
    exact hs2
  intro heq
  rw [heq] at hrpow
  linarith

/-- C8 (code bug): with the zero coefficient vector the normalization integrand
is identically zero, scipy's quadrature returns exactly `0.0`, and construction
does NOT fail fast: `normF = sqrt 0 = 0` is stored and an evaluator is still
returned whose every value divides by zero (numpy emits `nan` with a warning;
the embedding's division-by-zero convention yields `0`).  No error is raised
anywhere in `WaveFunction.__init__`. -/
theorem c8_degenerate_normalization (x t y : ℝ) :
    WaveFunction.rawEvaluate (HilbertSpace.construct 1 none) [0] y 0 = 0 ∧
      (WaveFunction.constructC (fun _ => 0) (HilbertSpace.construct 1 none) [0]).normF = 0 ∧
      (WaveFunction.constructC (fun _ => 0) (HilbertSpace.construct 1 none) [0]).evaluate x t
        = 0 := by
  have hraw : ∀ a b : ℝ, WaveFunction.rawEvaluate (HilbertSpace.construct 1 none) [0] a b = 0 := by
    intro a b
    unfold WaveFunction.rawEvaluate
    rw [show (HilbertSpace.construct 1 none).dim = 1 from rfl, Finset.sum_range_one]
    simp
  refine ⟨hraw y 0, ?_, ?_⟩
  · show WaveFunction.normalize (fun _ => 0)
        (fun z => WaveFunction.rawEvaluate (HilbertSpace.construct 1 none) [0] z 0) = 0
    unfold WaveFunction.normalize
    simp
  · unfold WaveFunction.evaluate
    rw [show (WaveFunction.constructC (fun _ => 0) (HilbertSpace.construct 1 none) [0]).hilbert
        = HilbertSpace.construct 1 none from rfl,
      show (WaveFunction.constructC (fun _ => 0) (HilbertSpace.construct 1 none) [0]).coeff
        = [0] from rfl,
      hraw x t, zero_div]

/-- C1: for a `WaveFunction` built from an explicit coefficient vector over a
Hilbert space of dimension `d`, the public evaluator is the coefficient-
weighted superposition `Σ coeff[n] · eigenbasis(n, x) · exp(-i (n + 1/2) t)`
divided by `normF = sqrt` of the quadrature of `|raw(·, 0)|²`, the `t = 0`
slice of the raw superposition, computed once at construction. -/
theorem c1_evaluate_formula (quad : (ℝ → ℝ) → ℝ) (d : ℕ) (V : Option (ℝ → ℝ))
    (coeff : List ℂ) (x t : ℝ) (h : coeff.length = d) :
    (WaveFunction.constructC quad (HilbertSpace.construct d V) coeff).evaluate x t
      = (∑ n ∈ Finset.range d,
            coeff.getD n 0 * (((HilbertSpace.construct d V).eigenfun n x : ℝ) : ℂ) *
              Complex.exp (-Complex.I * ((n : ℂ) + 1 / 2) * (t : ℂ)))
        / ((Real.sqrt (quad (fun y =>
              Complex.abs (WaveFunction.rawEvaluate (HilbertSpace.construct d V) coeff y 0) ^ 2))
            : ℝ) : ℂ) := by
  unfold WaveFunction.evaluate
  rw [show (WaveFunction.constructC quad (HilbertSpace.construct d V) coeff).hilbert
      = HilbertSpace.construct d V from rfl,
    show (WaveFunction.constructC quad (HilbertSpace.construct d V) coeff).coeff
      = coeff from rfl,
    show (WaveFunction.constructC quad (HilbertSpace.construct d V) coeff).normF
      = WaveFunction.normalize quad
          (fun z => WaveFunction.rawEvaluate (HilbertSpace.construct d V) coeff z 0) from rfl]
  unfold WaveFunction.normalize
  congr 1
  unfold WaveFunction.rawEvaluate WaveFunction.phaseFactor HilbertSpace.eigenvalues
  rw [show (HilbertSpace.construct d V).dim = d from rfl]
  refine Finset.sum_congr rfl fun n _ => ?_
  have hcast : (((1 : ℝ) / 2 + (n : ℝ) : ℝ) : ℂ) = (n : ℂ) + 1 / 2 := by
    push_cast
    ring
  rw [hcast]

/-- Witness for C1: dimension 1, coefficient vector `[1]`, evaluated at the
origin with a quadrature stub. -/
theorem c1_evaluate_formula_witness :
    ([(1 : ℂ)] : List ℂ).length = 1 ∧
      (WaveFunction.constructC (fun _ => 0) (HilbertSpace.construct 1 none) [1]).evaluate 0 0
        = (∑ n ∈ Finset.range 1,
              ([(1 : ℂ)] : List ℂ).getD n 0 *
                (((HilbertSpace.construct 1 none).eigenfun n 0 : ℝ) : ℂ) *
                Complex.exp (-Complex.I * ((n : ℂ) + 1 / 2) * ((0 : ℝ) : ℂ)))
          / ((Real.sqrt ((fun _ => (0 : ℝ)) (fun y =>
                Complex.abs (WaveFunction.rawEvaluate (HilbertSpace.construct 1 none) [1] y 0) ^ 2))
              : ℝ) : ℂ) :=
  ⟨rfl, c1_evaluate_formula (fun _ => 0) 1 none [1] 0 0 rfl⟩

/-- C7: for a single-mode `WaveFunction` (`dim = 1`, `coeff = [1]`), the
modulus of `evaluate(x, t)` is independent of `t`, and
`evaluate(x, t) = evaluate(x, 0) · exp(-i · 0.5 · t)`. -/
theorem c7_single_mode_stationary (quad : (ℝ → ℝ) → ℝ) (V : Option (ℝ → ℝ)) (x t : ℝ) :
    Complex.abs ((WaveFunction.constructC quad (HilbertSpace.construct 1 V) [1]).evaluate x t)
        = Complex.abs
            ((WaveFunction.constructC quad (HilbertSpace.construct 1 V) [1]).evaluate x 0) ∧
      (WaveFunction.constructC quad (HilbertSpace.construct 1 V) [1]).evaluate x t
        = (WaveFunction.constructC quad (HilbertSpace.construct 1 V) [1]).evaluate x 0
          * Complex.exp (-Complex.I * (1 / 2 : ℂ) * (t : ℂ)) := by
  have hraw : ∀ a b : ℝ, WaveFunction.rawEvaluate (HilbertSpace.construct 1 V) [1] a b
      = (((HilbertSpace.construct 1 V).eigenfun 0 a : ℝ) : ℂ)
        * Complex.exp (-Complex.I * (1 / 2 : ℂ) * (b : ℂ)) := by
    intro a b
    unfold WaveFunction.rawEvaluate WaveFunction.phaseFactor HilbertSpace.eigenvalues
    rw [show (HilbertSpace.construct 1 V).dim = 1 from rfl, Finset.sum_range_one]
    rw [show ([(1 : ℂ)] : List ℂ).getD 0 0 = 1 from rfl, one_mul]
    have hcast : (((1 : ℝ) / 2 + ((0 : ℕ) : ℝ) : ℝ) : ℂ) = (1 / 2 : ℂ) := by
      push_cast
      ring
    rw [hcast]
  have heval : ∀ a b : ℝ,
      (WaveFunction.constructC quad (HilbertSpace.construct 1 V) [1]).evaluate a b
        = ((((HilbertSpace.construct 1 V).eigenfun 0 a : ℝ) : ℂ)
            * Complex.exp (-Complex.I * (1 / 2 : ℂ) * (b : ℂ)))
          / (((WaveFunction.constructC quad (HilbertSpace.construct 1 V) [1]).normF : ℝ) : ℂ) := by
    intro a b
    unfold WaveFunction.evaluate
    rw [show (WaveFunction.constructC quad (HilbertSpace.construct 1 V) [1]).hilbert
        = HilbertSpace.construct 1 V from rfl,
      show (WaveFunction.constructC quad (HilbertSpace.construct 1 V) [1]).coeff
        = [1] from rfl,
      hraw a b]
  have hre : ∀ b : ℝ, (-Complex.I * (1 / 2 : ℂ) * ((b : ℝ) : ℂ)).re = 0 := by
    intro b
    simp
  constructor
  · rw [heval x t, heval x 0, map_div₀, map_div₀, map_mul, map_mul,
      Complex.abs_exp, Complex.abs_exp, hre t, hre 0]
  · rw [heval x t, heval x 0]
    rw [show (-Complex.I * (1 / 2 : ℂ) * (((0 : ℝ) : ℝ) : ℂ)) = 0 by
      push_cast
      ring]
    rw [Complex.exp_zero, mul_one, div_mul_eq_mul_div]

/-- C9: the potential function does not influence the output: Hilbert spaces of
the same dimension built with different (or no) potentials yield `WaveFunction`
evaluators returning identical values, from explicit coefficients and from an
initial waveform alike. -/
theorem c9_potential_unused (quad : (ℝ → ℝ) → ℝ) (quadP : (ℝ → ℂ) → ℝ) (d dG : ℕ)
    (V1 V2 : Option (ℝ → ℝ)) (coeff : List ℂ) (ψ : ℝ → ℂ) (x t : ℝ) :
    (WaveFunction.constructC quad (HilbertSpace.construct d V1) coeff).evaluate x t
        = (WaveFunction.constructC quad (HilbertSpace.construct d V2) coeff).evaluate x t ∧
      (WaveFunction.constructW quad quadP dG (HilbertSpace.construct d V1) ψ).evaluate x t
        = (WaveFunction.constructW quad quadP dG (HilbertSpace.construct d V2) ψ).evaluate x t :=
  ⟨rfl, rfl⟩

end
